import Mathlib

/-
Verification of the LensKit ALS training core (lenskit/algorithms/als/explicit.py)
and the process-wide parallelism configuration (lenskit/parallel/config.py).

The numeric code is embedded over exact rational arithmetic: torch tensors of
floats become matrices/vectors over ℚ, and `torch.linalg.cholesky_ex` followed
by `torch.cholesky_solve` is modelled by its exact-arithmetic semantics: the
factorization succeeds exactly when every leading principal minor of the
(symmetric) system matrix is positive (Sylvester's criterion, equivalent to
positive definiteness), and on success the solve returns the unique solution
of the linear system.
-/

set_option maxHeartbeats 1000000

namespace LKSpec

open Matrix

/-- Dense vector with `n` entries (a 1-d torch tensor), over exact rationals. -/
abbrev Vec (n : ℕ) : Type := Fin n → ℚ

/-- Dense `m × n` matrix (a 2-d torch tensor), over exact rationals. -/
abbrev Mat (m n : ℕ) : Type := Matrix (Fin m) (Fin n) ℚ

/-- Executable determinant via Laplace expansion along the first row.
Used so that concrete instances kernel-evaluate; proved equal to `Matrix.det`. -/
def detQ : {n : ℕ} → Mat n n → ℚ
  | 0, _ => 1
  | n + 1, A =>
    ∑ j : Fin (n + 1), (-1) ^ (j : ℕ) * A 0 j * detQ (A.submatrix Fin.succ j.succAbove)

/-- The leading principal `(k+1) × (k+1)` submatrix of a square matrix. -/
def leadingSub (A : Mat n n) (k : Fin n) : Mat (k.1 + 1) (k.1 + 1) :=
  A.submatrix (Fin.castLE k.isLt) (Fin.castLE k.isLt)

/-- Exact-arithmetic success predicate for `torch.linalg.cholesky_ex`: the
factorization of a symmetric matrix succeeds (info == 0) iff every leading
principal minor is positive (Sylvester's criterion for positive definiteness). -/
def choleskyOk (A : Mat n n) : Bool :=
  decide (∀ k : Fin n, 0 < detQ (leadingSub A k))

/-- Exact-arithmetic model of `torch.linalg.cholesky_ex` + `torch.cholesky_solve`:
if the factorization succeeds, return the unique solution of `A x = b`
(written via Cramer's rule, which is the exact solution of the system);
otherwise report the failure, as the source does by raising `RuntimeError`. -/
def choleskySolve (A : Mat n n) (b : Vec n) : Except String (Vec n) :=
  if choleskyOk A then
    Except.ok (fun i => detQ (A.updateColumn i b) / detQ A)
  else
    Except.error "error computing Cholesky decomposition (not symmetric?)"

/-! ## Row Solver (explicit.py, `_train_solve_row` and `_train_bias_row_cholesky`) -/
/-- `M = other[cols, :]`: the rows of the fixed other-factor matrix selected by
the observed column indices (shape: observations × features). -/
def designM (cols : List (Fin no)) (other : Mat no nf) : Mat cols.length nf :=
  Matrix.of fun r c => other (cols.get r) c

/-- `A = M.T @ M + regI * len(cols)`: the regularized normal-equations matrix,
with the regularization matrix scaled by the number of observations. -/
def normalA (cols : List (Fin no)) (other : Mat no nf) (regI : Mat nf nf) : Mat nf nf :=
  (designM cols other)ᵀ * designM cols other + (cols.length : ℚ) • regI

/-- `V = M.T @ vals`: the right-hand side of the normal equations. -/
def rhsV (cols : List (Fin no)) (vals : Fin cols.length → ℚ) (other : Mat no nf) : Vec nf :=
  (designM cols other)ᵀ.mulVec vals

/-- Embedding of `_train_solve_row` (explicit.py lines 139-160).  The `this`
tensor of the source is used only for its column count `nf`, which is a type
index here; `reshape` operations are identities on our vector representation. -/
def _train_solve_row (cols : List (Fin no)) (vals : Fin cols.length → ℚ)
    (other : Mat no nf) (regI : Mat nf nf) : Except String (Vec nf) :=
  choleskySolve (normalA cols other regI) (rhsV cols vals other)

/-- Embedding of `_train_bias_row_cholesky` (explicit.py lines 207-232):
same normal equations, with `regI = torch.eye(nf) * reg` built from the
scalar regularization term. -/
def _train_bias_row_cholesky (items : List (Fin ni)) (ratings : Fin items.length → ℚ)
    (other : Mat ni nf) (reg : ℚ) : Except String (Vec nf) :=
  choleskySolve (normalA items other (reg • (1 : Mat nf nf)))
    (rhsV items ratings other)

/-! ## Work partitioning (the fan-out loop of explicit.py lines 192-195) -/
/-- Python `range(start, stop, step)` for a non-negative step (empty when the
step is zero, as iteration would not terminate; all call sites have step ≥ 1). -/
def rangeStep (start stop step : ℕ) : List ℕ :=
  if h : 0 < step ∧ start < stop then start :: rangeStep (start + step) stop step else []
termination_by stop - start
decreasing_by omega

/-- The chunk ranges generated by the fan-out loop:
`for start in range(0, nrows, chunk_size): end = min(start + chunk_size, nrows)`. -/
def chunkRanges (N C : ℕ) : List (ℕ × ℕ) :=
  (rangeStep 0 N C).map fun s => (s, min (s + C) N)

/-! ## Training context and the half-epoch update (explicit.py lines 163-204) -/
/-- Embedding of `TrainContext` (from the ALS common module): `left` is the
factor matrix being solved for, `right` the fixed other-factor matrix,
`matrix` the sparse rows being solved against, given as each row's list of
(column index, value) pairs, `regI` the regularization matrix.  The row count
`ctx.nrows` is the type index `nr`. -/
structure TrainContext (nr nf no : ℕ) where
  left : Mat nr nf
  right : Mat no nf
  matrix : Fin nr → List (Fin no × ℚ)
  regI : Mat nf nf

/-- One iteration of the loop body of `_train_update_rows`.  The guard
`(n,) = row.shape; if n == 0: continue` unpacks the selected sparse row's
shape, which is its DENSE length — the column count `no` of the matrix — not
its stored-entry count, so the `continue` (keeping the cloned value) fires
only when the matrix has no columns at all.  Every row of a matrix with at
least one column, including a row with zero stored entries, is passed to the
row solver with its (possibly empty) indices and values. -/
def rowUpdate (ctx : TrainContext nr nf no) (i : Fin nr) : Except String (Vec nf) :=
  let row := ctx.matrix i
  if no = 0 then Except.ok (ctx.left i)
  else
    _train_solve_row (row.map Prod.fst)
      (fun k => (row.get (Fin.cast (by simp) k)).2)
      ctx.right ctx.regI

/-- The Python iteration space `range(start, stop)` as valid row indices.  At
every call site `start ≤ stop ≤ nr`, so the bound check drops nothing. -/
def rangeIdx (nr start stop : ℕ) : List (Fin nr) :=
  (List.range' start (stop - start)).filterMap fun i =>
    if h : i < nr then some ⟨i, h⟩ else none

/-- Embedding of `_train_update_rows` (explicit.py lines 163-180): compute the
block of new row vectors for rows `[start, stop)`, starting from a clone of
the current rows; a row-solve failure raises, discarding the whole partially
computed block. -/
def _train_update_rows (ctx : TrainContext nr nf no) (start stop : ℕ) :
    Except String (List (Vec nf)) :=
  mapM' (rowUpdate ctx) (rangeIdx nr start stop)

/-- Write a computed block into `left` at rows `[start, start + B.length)`
(`ctx.left[start:end, :] = M`). -/
def commitBlock (L : Mat nr nf) (start : ℕ) (B : List (Vec nf)) : Mat nr nf :=
  Matrix.of fun i j =>
    if h : start ≤ i.1 ∧ i.1 - start < B.length then B.get ⟨i.1 - start, h.2⟩ j
    else L i j

/-- Row `i` of `L` as a total function of a plain natural row number (rows
outside `[0, nr)` read 0; such reads never occur at call sites). -/
def rowOr0 (L : Mat nr nf) (i : ℕ) (j : Fin nf) : ℚ :=
  if h : i < nr then L ⟨i, h⟩ j else 0

/-- Squared Frobenius magnitude of `L[start:start+B.length, :] - B`: the
quantity `torch.dot(diff, diff)` accumulated per chunk on the fan-out path,
and the square of `torch.norm(ctx.left - M)` on the sequential path. -/
def sqDiffBlock (L : Mat nr nf) (start : ℕ) (B : List (Vec nf)) : ℚ :=
  ∑ k : Fin B.length, ∑ j : Fin nf, (rowOr0 L (start + k.1) j - B.get k j) ^ 2

/-- The guard of `_train_update_fanout`: `if ctx.nrows <= 50:` the update runs
sequentially in the calling context. -/
def usesSequential (nrows : ℕ) : Bool := nrows ≤ 50

/-- The sequential path of `_train_update_fanout`: compute all rows, measure
`sqerr = torch.norm(ctx.left - M)` against the entry `left`, then commit
`ctx.left[:, :] = M`.  The first component is the final `left`; the second is
the squared returned magnitude, or the raised error (on which `left` is
unchanged). -/
def seqHalfEpoch (ctx : TrainContext nr nf no) : Mat nr nf × Except String ℚ :=
  match _train_update_rows ctx 0 nr with
  | Except.error e => (ctx.left, Except.error e)
  | Except.ok M => (commitBlock ctx.left 0 M, Except.ok (sqDiffBlock ctx.left 0 M))

/-- The futures forked by the fan-out loop, one per chunk, paired with their
chunk ranges.  Each task is a pure function of the entry context: a task reads
only its own chunk's rows of `left` (for the initial clone and the rows it
leaves untouched), and those rows are only ever written by that same chunk's
later commit, so the forked computation sees entry values. -/
def parTasks (ctx : TrainContext nr nf no) (C : ℕ) :
    List ((ℕ × ℕ) × Except String (List (Vec nf))) :=
  (chunkRanges nr C).map fun se => (se, _train_update_rows ctx se.1 se.2)

/-- The wait/commit loop of the fan-out path, over the tasks in submission
order: `r.wait()` on a failed task re-raises, leaving the chunks already
committed in `left`; on success the chunk's squared difference against the
current `left` is accumulated and the block is committed. -/
def fanoutCommit (tasks : List ((ℕ × ℕ) × Except String (List (Vec nf))))
    (L : Mat nr nf) (acc : ℚ) : Mat nr nf × Except String ℚ :=
  match tasks with
  | [] => (L, Except.ok acc)
  | (se, r) :: rest =>
    match r with
    | Except.error e => (L, Except.error e)
    | Except.ok M =>
      fanoutCommit rest (commitBlock L se.1 M) (acc + sqDiffBlock L se.1 M)

/-- Embedding of `_train_update_fanout` (explicit.py lines 183-204), with the
chunk size passed in (the source takes it from `WorkChunks`).  The first
component is the final state of `ctx.left`; the second carries the squared
magnitude whose square root the source returns (`torch.norm` directly on the
sequential path, `sqerr.sqrt().item()` on the fan-out path), or the error
raised out of the half-epoch. -/
def _train_update_fanout (ctx : TrainContext nr nf no) (C : ℕ) :
    Mat nr nf × Except String ℚ :=
  if usesSequential nr then seqHalfEpoch ctx
  else fanoutCommit (parTasks ctx C) ctx.left 0

/-- The value the source actually returns: the square root of the accumulated
squared magnitude (errors carry no return value). -/
noncomputable def returnVal : Except String ℚ → ℝ
  | Except.ok q => Real.sqrt q
  | Except.error _ => 0

/-- Squared Frobenius distance between two matrices. -/
def sqDiff (A B : Mat nr nf) : ℚ :=
  ∑ i : Fin nr, ∑ j : Fin nf, (A i j - B i j) ^ 2

/-- `torch.norm(A - B)`: the Euclidean (Frobenius) norm of the difference. -/
noncomputable def euclNorm (A B : Mat nr nf) : ℝ := Real.sqrt (sqDiff A B)

/-! ## Concrete training contexts exercising the failure paths -/
instance exceptDecEq {e a : Type} [DecidableEq e] [DecidableEq a] :
    DecidableEq (Except e a) := fun x y =>
  match x, y with
  | Except.ok v, Except.ok w =>
    if h : v = w then Decidable.isTrue (by rw [h])
    else Decidable.isFalse fun hc => h (by cases hc; rfl)
  | Except.error v, Except.error w =>
    if h : v = w then Decidable.isTrue (by rw [h])
    else Decidable.isFalse fun hc => h (by cases hc; rfl)
  | Except.ok _, Except.error _ => Decidable.isFalse fun hc => Except.noConfusion hc
  | Except.error _, Except.ok _ => Decidable.isFalse fun hc => Except.noConfusion hc

/-- 51 rows (above the sequential threshold), 1 feature, 2 items: every row
except row 26 has one observation on item 0 (solvable: the system matrix is
[[1]], the new row value 5); row 26 has one observation on item 1, whose
feature is 0, so with zero regularization its system matrix is [[0]] and the
factorization fails.  With chunk size 26 every row of chunk one solves and
the failing row opens chunk two. -/
def ctxC1 : TrainContext 51 1 2 where
  left := Matrix.of fun _ _ => 0
  right := Matrix.of fun i _ => if i.1 = 0 then 1 else 0
  matrix := fun i =>
    if i.1 = 26 then [((1 : Fin 2), 1)] else [((0 : Fin 2), 5)]
  regI := Matrix.of fun _ _ => 0

/-- The same scenario with 50 rows (at the sequential threshold). -/
def ctx50 : TrainContext 50 1 2 where
  left := Matrix.of fun _ _ => 0
  right := Matrix.of fun i _ => if i.1 = 0 then 1 else 0
  matrix := fun i =>
    if i.1 = 26 then [((1 : Fin 2), 1)] else [((0 : Fin 2), 5)]
  regI := Matrix.of fun _ _ => 0

/-- One row, one feature, one item, regularization matrix `I` (reg = 1), and a
sparse row with zero stored entries: the context on which C4's identity-update
claim is tested.  The row solver receives empty indices, so its system matrix
is `MᵀM + regI·0 = 0` — the weighted regularization vanishes — and the
factorization fails even though the regularization scalar is positive. -/
def ctxE : TrainContext 1 1 1 where
  left := Matrix.of fun _ _ => 7
  right := Matrix.of fun _ _ => 1
  matrix := fun _ => []
  regI := Matrix.of fun _ _ => 1

/-! ## Completion-order model of the fan-out and refinement to the sequential path -/
/-- The state of `ctx.left` after the first `j` chunk commits, under a
completion schedule `σ`: the task for chunk `k` runs when `min (σ k) k`
commits have completed (a task's own commit can only happen after the task
completed, so at most `k` prior commits can be visible to it; commits happen
in wait order, i.e. submission order).  A failed task commits nothing. -/
def schedLeft (ctx : TrainContext nr nf no) (C : ℕ) (σ : ℕ → ℕ) : ℕ → Mat nr nf
  | 0 => ctx.left
  | j + 1 =>
    match (chunkRanges nr C)[j]? with
    | none => schedLeft ctx C σ j
    | some se =>
      match _train_update_rows
          { ctx with left := schedLeft ctx C σ (min (σ j) j) } se.1 se.2 with
      | Except.ok M => commitBlock (schedLeft ctx C σ j) se.1 M
      | Except.error _ => schedLeft ctx C σ j
termination_by j => j
decreasing_by all_goals omega

/-- The chunk tasks as computed under completion schedule `σ`: task `k` reads
the `left` state it observes when it runs. -/
def schedTasks (ctx : TrainContext nr nf no) (C : ℕ) (σ : ℕ → ℕ) :
    List ((ℕ × ℕ) × Except String (List (Vec nf))) :=
  (chunkRanges nr C).enum.map fun ke =>
    (ke.2, _train_update_rows
      { ctx with left := schedLeft ctx C σ (min (σ ke.1) ke.1) } ke.2.1 ke.2.2)

/-- The fan-out path executed under completion schedule `σ`: the wait/commit
loop over the tasks as they were actually computed. -/
def _train_update_sched (ctx : TrainContext nr nf no) (C : ℕ) (σ : ℕ → ℕ) :
    Mat nr nf × Except String ℚ :=
  fanoutCommit (schedTasks ctx C σ) ctx.left 0

/-- A 2-row, 1-item, 1-feature context on which every row solve succeeds:
each row has one observation of value 3 on item 0, the item feature is 1 and
the regularization matrix is `I`, so each row's system is `[[2]] x = [3]`.
Used as the concrete witness instance of the refinement theorem. -/
def ctxW : TrainContext 2 1 1 where
  left := Matrix.of fun _ _ => 1
  right := Matrix.of fun _ _ => 1
  matrix := fun _ => [((0 : Fin 1), 3)]
  regI := Matrix.of fun _ _ => 1

/-! ## Process-wide parallelism configuration (lenskit/parallel/config.py) -/
structure ParallelConfig where
  processes : ℕ
  threads : ℕ
  child_threads : ℕ
deriving DecidableEq

/-- The process environment read by the resolver: the three `LK_*` environment
variables (modelled as parsed numbers; `none` when unset or empty, since an
empty string is falsy in the source's truthiness checks) and `mp.cpu_count()`. -/
structure ParallelEnv where
  lk_num_procs : Option ℕ
  lk_num_threads : Option ℕ
  lk_num_child_threads : Option ℕ
  ncpus : ℕ

/-- Embedding of `_resolve_parallel_config` (config.py lines 97-125): explicit
arguments win, then environment overrides, then computed defaults.  The
child-thread fallback is `min(ncpus // processes, 4)` with Python's floor
division, which is ℕ division here. -/
def _resolve_parallel_config (env : ParallelEnv)
    (processes threads child_threads : Option ℕ) : ParallelConfig :=
  let processes := match processes with
    | none => env.lk_num_procs
    | some p => some p
  let threads := match threads with
    | none => env.lk_num_threads
    | some t => some t
  let child_threads := match child_threads with
    | none => env.lk_num_child_threads
    | some c => some c
  let processes := processes.getD (min env.ncpus 4)
  let threads := threads.getD (min env.ncpus 8)
  let child_threads := child_threads.getD (min (env.ncpus / processes) 4)
  ⟨processes, threads, child_threads⟩

/-- Embedding of the `initialize` entry point of config.py (lines 30-73), as a
transformer of the process-wide `_config` state: when the configuration is
already set (any stored dataclass is truthy) the call logs a warning (the
`true` second component), returns normally, and leaves the state unchanged;
otherwise it stores the resolved configuration. -/
def initConfig (st : Option ParallelConfig) (env : ParallelEnv)
    (processes threads child_threads : Option ℕ) :
    Option ParallelConfig × Bool :=
  match st with
  | some c => (some c, true)
  | none =>
    (some (_resolve_parallel_config env processes threads child_threads), false)

/-! ## Cold-start user embedding (explicit.py, `BiasedMF.new_user_embedding`) -/
/-- `pandas.Index.get_indexer_for` on a unique index, as a positional lookup:
the position of the item in the vocabulary, `none` when absent (the source's
`-1`, which the `ri_good = ri_idxes >= 0` mask then drops). -/
def lookupIdx {a : Type} [DecidableEq a] : (items : List a) → a → Option (Fin items.length)
  | [], _ => none
  | b :: bs, x =>
    if x = b then some ⟨0, Nat.succ_pos _⟩ else (lookupIdx bs x).map Fin.succ

/-- The `ri_good` filtering of `new_user_embedding` (explicit.py lines
113-116): keep, in rating order, the (position, value) pairs of exactly those
rated items found in the trained item vocabulary. -/
def knownRatings {a : Type} [DecidableEq a] (items : List a)
    (ratings : List (a × ℚ)) : List (Fin items.length × ℚ) :=
  ratings.filterMap fun rv => (lookupIdx items rv.1).map fun ix => (ix, rv.2)

/-- The solve step of `new_user_embedding` on the filtered (position, value)
pairs: `_train_bias_row_cholesky(ri_it, ri_val, item_features_, ureg)`. -/
def solveGood (good : List (Fin ni × ℚ)) (item_features : Mat ni nf)
    (ureg : ℚ) : Except String (Vec nf) :=
  _train_bias_row_cholesky (good.map Prod.fst)
    (fun k => (good.get (Fin.cast (by simp) k)).2) item_features ureg

/-- Embedding of `BiasedMF.new_user_embedding` (explicit.py lines 107-125) for
the no-bias configuration (`self.bias` is `None`, so the ratings series passes
through unnormalized; the bias model is an external collaborator outside the
training core): drop ratings for unknown items, then solve against the
trained item features with the user regularization scalar. -/
def new_user_embedding {a : Type} [DecidableEq a] (items : List a)
    (item_features : Mat items.length nf) (ureg : ℚ)
    (ratings : List (a × ℚ)) : Except String (Vec nf) :=
  solveGood (knownRatings items ratings) item_features ureg

/-! ## Theorems -/

theorem detQ_eq_det : ∀ {n : ℕ} (A : Mat n n), detQ A = A.det := by
  intro n
  induction n with
  | zero => intro A; simp [detQ, Matrix.det_isEmpty]
  | succ m ih =>
    intro A
    rw [Matrix.det_succ_row_zero]
    simp only [detQ, ih]

theorem choleskyOk_det_pos {n : ℕ} {A : Mat n n} (h : choleskyOk A = true) :
    0 < A.det := by
  unfold choleskyOk at h
  rw [decide_eq_true_eq] at h
  cases n with
  | zero => simp [Matrix.det_isEmpty]
  | succ m =>
    have hlast := h (Fin.last m)
    have hsub : leadingSub A (Fin.last m) = A := by
      unfold leadingSub
      ext i j
      simp [Matrix.submatrix, Fin.castLE]
    rw [hsub, detQ_eq_det] at hlast
    exact hlast

theorem choleskySolve_ok_solves {n : ℕ} {A : Mat n n} {b : Vec n} {x : Vec n}
    (h : choleskySolve A b = Except.ok x) : A.mulVec x = b := by
  unfold choleskySolve at h
  by_cases hok : choleskyOk A = true
  · rw [if_pos hok] at h
    have hx : x = fun i => detQ (A.updateColumn i b) / detQ A := by
      cases h; rfl
    have hdet : 0 < A.det := choleskyOk_det_pos hok
    have hx' : x = A.det⁻¹ • A.cramer b := by
      funext i
      rw [hx]
      simp only [Pi.smul_apply, Matrix.cramer_apply, smul_eq_mul, detQ_eq_det]
      rw [div_eq_inv_mul]
    rw [hx', Matrix.mulVec_smul, Matrix.mulVec_cramer]
    funext i
    simp only [Pi.smul_apply, smul_eq_mul]
    field_simp
  · rw [if_neg hok] at h
    cases h

theorem choleskySolve_error_iff {n : ℕ} (A : Mat n n) (b : Vec n) :
    (∃ e, choleskySolve A b = Except.error e) ↔ choleskyOk A = false := by
  unfold choleskySolve
  constructor
  · rintro ⟨e, he⟩
    by_cases hok : choleskyOk A = true
    · rw [if_pos hok] at he; cases he
    · simpa using hok
  · intro hok
    rw [if_neg (by simp [hok])]
    exact ⟨_, rfl⟩

/-- C3: for a row with `n ≥ 1` observed entries, a successful row solve returns
the vector `x` with `(MᵀM + λ·n·I) x = Mᵀ v`: the regularization is scaled by
the observation count `n`, not a fixed constant. -/
theorem row_solver_solves_weighted_normal_equations {ni nf : ℕ}
    (items : List (Fin ni)) (ratings : Fin items.length → ℚ) (other : Mat ni nf)
    (reg : ℚ) (n : ℕ) (hn : items.length = n) (hn1 : 1 ≤ n) (x : Vec nf)
    (hok : _train_bias_row_cholesky items ratings other reg = Except.ok x) :
    ((designM items other)ᵀ * designM items other
        + (reg * n) • (1 : Mat nf nf)).mulVec x
      = (designM items other)ᵀ.mulVec ratings := by
  have h := choleskySolve_ok_solves hok
  unfold normalA rhsV at h
  subst hn
  rw [smul_smul, mul_comm] at h
  exact h

unseal Rat.add Rat.mul Rat.sub Rat.inv in
/-- Witness for C3: a concrete one-feature instance where the solve succeeds
and the returned vector satisfies the weighted normal equations. -/
theorem row_solver_solves_weighted_normal_equations_witness :
    ((designM [(0 : Fin 1)] (Matrix.of fun _ _ => (1 : ℚ)))ᵀ
          * designM [(0 : Fin 1)] (Matrix.of fun _ _ => (1 : ℚ))
        + ((1 : ℚ) * (1 : ℕ)) • (1 : Mat 1 1)).mulVec (fun _ => 3 / 2)
      = (designM [(0 : Fin 1)] (Matrix.of fun _ _ => (1 : ℚ)))ᵀ.mulVec
          (fun _ => (3 : ℚ)) := by
  apply row_solver_solves_weighted_normal_equations
    [(0 : Fin 1)] (fun _ => (3 : ℚ)) (Matrix.of fun _ _ => (1 : ℚ)) 1 1 rfl le_rfl
  have h1 : choleskyOk (normalA [(0 : Fin 1)] (Matrix.of fun _ _ => (1 : ℚ))
      ((1 : ℚ) • (1 : Mat 1 1))) = true := by decide
  simp only [_train_bias_row_cholesky, choleskySolve, h1, if_true]
  refine congrArg Except.ok (funext fun i => ?_)
  fin_cases i
  decide

/-- C5: the row solver reports an error exactly when the Cholesky factorization
of the regularized normal-equations matrix fails, and a successful result can
only arise from a successful factorization (no substituted default vector). -/
theorem row_solver_error_iff_factorization_failure {no nf : ℕ}
    (cols : List (Fin no)) (vals : Fin cols.length → ℚ)
    (other : Mat no nf) (regI : Mat nf nf) :
    ((∃ e, _train_solve_row cols vals other regI = Except.error e)
        ↔ choleskyOk (normalA cols other regI) = false)
    ∧ ∀ x, _train_solve_row cols vals other regI = Except.ok x
        → choleskyOk (normalA cols other regI) = true := by
  constructor
  · exact choleskySolve_error_iff _ _
  · intro x hx
    by_cases h : choleskyOk (normalA cols other regI) = true
    · exact h
    · unfold _train_solve_row choleskySolve at hx
      rw [if_neg h] at hx
      cases hx

unseal Rat.add Rat.mul Rat.sub Rat.inv in
/-- Witness for C5: a concrete degenerate instance (zero features of the rated
item, zero regularization) where the factorization fails and the row solve
surfaces the error. -/
theorem row_solver_error_iff_factorization_failure_witness :
    ∃ e, _train_solve_row [(0 : Fin 1)] (fun _ => (1 : ℚ))
        (Matrix.of fun _ _ => (0 : ℚ)) (0 : Mat 1 1) = Except.error e :=
  (row_solver_error_iff_factorization_failure [(0 : Fin 1)] (fun _ => (1 : ℚ))
      (Matrix.of fun _ _ => (0 : ℚ)) (0 : Mat 1 1)).1.mpr (by decide)

theorem rangeStep_eq (start stop step : ℕ) (hs : 0 < step) :
    rangeStep start stop step
      = (List.range ((stop - start + step - 1) / step)).map fun i => start + i * step := by
  induction start, stop, step using rangeStep.induct with
  | case1 start stop step h ih =>
    rw [rangeStep, dif_pos h]
    have hcount : (stop - start + step - 1) / step
        = (stop - (start + step) + step - 1) / step + 1 := by
      rcases le_or_lt stop (start + step) with hle | hlt
      · have hb : stop - (start + step) + step - 1 = step - 1 := by omega
        have ha : stop - start + step - 1 = (stop - start - 1) + step := by omega
        rw [ha, hb, Nat.add_div_right _ h.1, Nat.div_eq_of_lt (by omega),
          Nat.div_eq_of_lt (by omega)]
      · have hb : stop - (start + step) + step - 1 = (stop - start - step - 1) + step := by
          omega
        have ha : stop - start + step - 1 = ((stop - start - step - 1) + step) + step := by
          omega
        rw [ha, hb, Nat.add_div_right _ h.1, Nat.add_div_right _ h.1]
    rw [hcount, List.range_succ_eq_map, List.map_cons, List.map_map, ih h.1]
    refine congrArg₂ List.cons (by omega) ?_
    refine List.map_congr_left fun i _ => ?_
    simp only [Function.comp_apply, Nat.succ_eq_add_one]
    ring
  | case2 start stop step h =>
    rw [rangeStep, dif_neg h]
    have : stop - start + step - 1 = step - 1 := by omega
    rw [this, Nat.div_eq_of_lt (by omega), List.range_zero, List.map_nil]

theorem chunkRanges_eq (N C : ℕ) (hC : 0 < C) :
    chunkRanges N C
      = (List.range ((N + C - 1) / C)).map fun k => (k * C, min (k * C + C) N) := by
  unfold chunkRanges
  rw [rangeStep_eq 0 N C hC, List.map_map]
  simp only [Nat.sub_zero]
  exact List.map_congr_left fun i _ => by simp [Function.comp]

theorem chunkRanges_flatten (N C : ℕ) (hC : 0 < C) :
    ((chunkRanges N C).flatMap fun p => List.range' p.1 (p.2 - p.1)) = List.range N := by
  have main : ∀ stop start step : ℕ, 0 < step →
      (((rangeStep start stop step).map fun s => (s, min (s + step) stop)).flatMap
          fun p => List.range' p.1 (p.2 - p.1))
        = List.range' start (stop - start) := by
    intro stop₀ start₀ step₀
    induction start₀, stop₀, step₀ using rangeStep.induct with
    | case1 start stop step h ih =>
      intro hs
      rw [rangeStep, dif_pos h, List.map_cons, List.flatMap_cons, ih h.1]
      rcases le_or_lt (start + step) stop with hle | hlt
      · have h1 : min (start + step) stop = start + step := by omega
        have h3 : start + step - start = step := by omega
        rw [h1, h3]
        have h2 : stop - start = (stop - (start + step)) + step := by omega
        rw [h2, ← List.range'_append start step (stop - (start + step)) 1]
        have h4 : start + 1 * step = start + step := by omega
        rw [h4]
      · have h1 : min (start + step) stop = stop := by omega
        have h3 : stop - (start + step) = 0 := by omega
        rw [h1, h3, List.range'_zero, List.append_nil]
    | case2 start stop step h =>
      intro hs
      rw [rangeStep, dif_neg h, List.map_nil, List.flatMap_nil]
      have h0 : stop - start = 0 := by omega
      rw [h0, List.range'_zero]
  rw [List.range_eq_range']
  have := main N 0 C hC
  rw [Nat.sub_zero] at this
  exact this

theorem chunkRanges_length (N C : ℕ) (hC : 0 < C) :
    (chunkRanges N C).length = (N + C - 1) / C := by
  rw [chunkRanges_eq N C hC, List.length_map, List.length_range]

theorem chunkRanges_getElem (N C : ℕ) (hC : 0 < C) (k : ℕ)
    (hk : k < (chunkRanges N C).length) :
    (chunkRanges N C)[k] = (k * C, min (k * C + C) N) := by
  have hlen := chunkRanges_length N C hC
  have hk2 : k < (N + C - 1) / C := hlen ▸ hk
  simp only [chunkRanges_eq N C hC]
  rw [List.getElem_map]
  rw [List.getElem_range]

theorem chunkRanges_start_lt (N C : ℕ) (hC : 0 < C) (k : ℕ)
    (hk : k < (chunkRanges N C).length) : k * C < N := by
  have hlen := chunkRanges_length N C hC
  have hk2 : k + 1 ≤ (N + C - 1) / C := by omega
  have := (Nat.le_div_iff_mul_le hC).mp hk2
  have hkc : k * C + C ≤ N + C - 1 := by
    have : (k + 1) * C = k * C + C := by ring
    omega
  omega

/-- C7: for any row count `N` and chunk size `C ≥ 1`, the `[start, end)` chunk
ranges generated by the fan-out loop concatenate (in order) to exactly
`[0, N)`, so they are disjoint, contiguous, cover `[0, N)` exactly once and in
ascending start order; every chunk is non-empty; and `N = 0` yields no chunks. -/
theorem work_partitioner_chunks (N C : ℕ) (hC : 1 ≤ C) :
    ((chunkRanges N C).flatMap fun p => List.range' p.1 (p.2 - p.1)) = List.range N
    ∧ (∀ p ∈ chunkRanges N C, p.1 < p.2)
    ∧ List.Chain' (fun p q => p.2 = q.1) (chunkRanges N C)
    ∧ List.Pairwise (fun p q => p.1 < q.1) (chunkRanges N C)
    ∧ chunkRanges 0 C = [] := by
  refine ⟨chunkRanges_flatten N C hC, ?_, ?_, ?_, ?_⟩
  · intro p hp
    rw [List.mem_iff_getElem] at hp
    obtain ⟨k, hk, hpk⟩ := hp
    rw [chunkRanges_getElem N C hC k hk] at hpk
    have hlt := chunkRanges_start_lt N C hC k hk
    subst hpk
    simp only
    omega
  · rw [chunkRanges_eq N C hC, List.chain'_map]
    rcases Nat.eq_zero_or_pos ((N + C - 1) / C) with h0 | hpos
    · rw [h0, List.range_zero]
      exact List.chain'_nil
    · obtain ⟨m, hm⟩ := Nat.exists_eq_add_of_lt hpos
      rw [hm, Nat.zero_add, ← Nat.succ_eq_add_one, List.chain'_range_succ]
      intro j hj
      have hjlen : j + 1 < (chunkRanges N C).length := by
        rw [chunkRanges_length N C hC]; omega
      have := chunkRanges_start_lt N C hC (j + 1) hjlen
      have hj1 : (j + 1) * C = j * C + C := by ring
      simp only [Nat.succ_eq_add_one]
      omega
  · rw [chunkRanges_eq N C hC, List.pairwise_map]
    refine (List.pairwise_lt_range _).imp ?_
    intro a b hab
    simpa using (Nat.mul_lt_mul_right hC).mpr hab
  · unfold chunkRanges
    rw [rangeStep, dif_neg (by omega)]
    rfl

/-- Witness for C7 at `N = 5`, `C = 2`: chunks `[0,2), [2,4), [4,5)`. -/
theorem work_partitioner_chunks_witness :
    (((chunkRanges 5 2).flatMap fun p => List.range' p.1 (p.2 - p.1)) = List.range 5
    ∧ (∀ p ∈ chunkRanges 5 2, p.1 < p.2)
    ∧ List.Chain' (fun p q => p.2 = q.1) (chunkRanges 5 2)
    ∧ List.Pairwise (fun p q => p.1 < q.1) (chunkRanges 5 2)
    ∧ chunkRanges 0 2 = [])
    ∧ chunkRanges 5 2 = [(0, 2), (2, 4), (4, 5)] :=
  ⟨work_partitioner_chunks 5 2 (by decide),
    by rw [chunkRanges_eq 5 2 (by decide)]; decide⟩

/-! ## Toolkit: monadic maps over `Except`, and index-range facts -/
theorem except_bind_ok {α β : Type} {x : Except String α} {f : α → Except String β}
    {b : β} (h : x >>= f = Except.ok b) :
    ∃ a, x = Except.ok a ∧ f a = Except.ok b := by
  cases x with
  | error e =>
    simp only [bind, Except.bind] at h
    exact Except.noConfusion h
  | ok a => exact ⟨a, rfl, by simpa only [bind, Except.bind] using h⟩

theorem mapMp_nil {α β : Type} (f : α → Except String β) :
    mapM' f ([] : List α) = Except.ok [] := rfl

theorem mapMp_cons {α β : Type} (f : α → Except String β) (a : α) (as : List α) :
    mapM' f (a :: as)
      = (f a >>= fun b => mapM' f as >>= fun bs => Except.ok (b :: bs)) := rfl

theorem mapMp_ok_length {α β : Type} (f : α → Except String β) :
    ∀ {l : List α} {M : List β}, mapM' f l = Except.ok M → M.length = l.length := by
  intro l
  induction l with
  | nil => intro M h; rw [mapMp_nil] at h; cases h; rfl
  | cons a as ih =>
    intro M h
    rw [mapMp_cons] at h
    obtain ⟨b, _, h2⟩ := except_bind_ok h
    obtain ⟨bs, h3, h4⟩ := except_bind_ok h2
    cases h4
    simp [ih h3]

theorem mapMp_ok_getElem {α β : Type} (f : α → Except String β) :
    ∀ {l : List α} {M : List β}, mapM' f l = Except.ok M →
      ∀ (k : ℕ) (hk : k < l.length) (hk2 : k < M.length),
        f (l.get ⟨k, hk⟩) = Except.ok (M.get ⟨k, hk2⟩) := by
  intro l
  induction l with
  | nil => intro M h k hk; simp at hk
  | cons a as ih =>
    intro M h k hk hk2
    rw [mapMp_cons] at h
    obtain ⟨b, h1, h2⟩ := except_bind_ok h
    obtain ⟨bs, h3, h4⟩ := except_bind_ok h2
    cases h4
    cases k with
    | zero => simpa using h1
    | succ m =>
      have hm : m < as.length := by simpa using hk
      have hm2 : m < bs.length := by simpa using hk2
      simpa using ih h3 m hm hm2

theorem mapMp_ok_of_forall {α β : Type} (f : α → Except String β) :
    ∀ {l : List α}, (∀ a ∈ l, ∃ b, f a = Except.ok b) →
      ∃ M, mapM' f l = Except.ok M := by
  intro l
  induction l with
  | nil => exact fun _ => ⟨[], rfl⟩
  | cons a as ih =>
    intro h
    obtain ⟨b, hb⟩ := h a (List.mem_cons_self a as)
    obtain ⟨M, hM⟩ := ih fun x hx => h x (List.mem_cons_of_mem a hx)
    refine ⟨b :: M, ?_⟩
    rw [mapMp_cons, hb]
    simp only [bind, Except.bind]
    rw [hM]

theorem mapMp_append_ok {α β : Type} (f : α → Except String β) :
    ∀ {l1 l2 : List α} {M : List β}, mapM' f (l1 ++ l2) = Except.ok M →
      ∃ M1 M2, mapM' f l1 = Except.ok M1 ∧ mapM' f l2 = Except.ok M2
        ∧ M = M1 ++ M2 := by
  intro l1
  induction l1 with
  | nil => intro l2 M h; exact ⟨[], M, rfl, by simpa using h, by simp⟩
  | cons a as ih =>
    intro l2 M h
    rw [List.cons_append, mapMp_cons] at h
    obtain ⟨b, h1, h2⟩ := except_bind_ok h
    obtain ⟨bs, h3, h4⟩ := except_bind_ok h2
    cases h4
    obtain ⟨M1, M2, h5, h6, h7⟩ := ih h3
    refine ⟨b :: M1, M2, ?_, h6, by simp [h7]⟩
    rw [mapMp_cons, h1]
    simp only [bind, Except.bind]
    rw [h5]

theorem mapMp_congr {α β : Type} {f g : α → Except String β} :
    ∀ {l : List α}, (∀ a ∈ l, f a = g a) → mapM' f l = mapM' g l := by
  intro l
  induction l with
  | nil => exact fun _ => rfl
  | cons a as ih =>
    intro h
    rw [mapMp_cons, mapMp_cons, h a (List.mem_cons_self a as),
      ih fun x hx => h x (List.mem_cons_of_mem a hx)]

theorem filterMap_toFin {nr : ℕ} :
    ∀ (l : List ℕ), (∀ i ∈ l, i < nr) →
      ((l.filterMap fun i =>
          if h : i < nr then some (⟨i, h⟩ : Fin nr) else none).map Fin.val) = l := by
  intro l
  induction l with
  | nil => intro _; rfl
  | cons a as ih =>
    intro h
    rw [List.filterMap_cons, dif_pos (h a (List.mem_cons_self a as))]
    simpa using ih fun x hx => h x (List.mem_cons_of_mem a hx)

theorem rangeIdx_map_val (nr start stop : ℕ) (hstop : stop ≤ nr) :
    (rangeIdx nr start stop).map Fin.val = List.range' start (stop - start) :=
  filterMap_toFin _ fun i hi => by
    rw [List.mem_range'_1] at hi; omega

theorem rangeIdx_length (nr start stop : ℕ) (hstop : stop ≤ nr) :
    (rangeIdx nr start stop).length = stop - start := by
  have h := congrArg List.length (rangeIdx_map_val nr start stop hstop)
  simpa using h

theorem rangeIdx_get (nr start stop : ℕ) (hstop : stop ≤ nr) (k : ℕ)
    (hk : k < (rangeIdx nr start stop).length) :
    ((rangeIdx nr start stop).get ⟨k, hk⟩).1 = start + k := by
  have hmap := rangeIdx_map_val nr start stop hstop
  have hk' : k < ((rangeIdx nr start stop).map Fin.val).length := by simpa using hk
  have h1 : ((rangeIdx nr start stop).map Fin.val).get ⟨k, hk'⟩
      = ((rangeIdx nr start stop).get ⟨k, hk⟩).1 := by
    simp [List.get_eq_getElem, List.getElem_map]
  have hk2 : k < (List.range' start (stop - start)).length := by
    rw [← hmap]; exact hk'
  rw [← h1, List.get_of_eq hmap]
  simp [List.get_eq_getElem, List.getElem_range']

theorem mem_rangeIdx_iff (nr start stop : ℕ) (hstop : stop ≤ nr) (i : Fin nr) :
    i ∈ rangeIdx nr start stop ↔ start ≤ i.1 ∧ i.1 < stop := by
  have hmap := rangeIdx_map_val nr start stop hstop
  have h1 : i ∈ rangeIdx nr start stop
      ↔ i.1 ∈ (rangeIdx nr start stop).map Fin.val :=
    (List.mem_map_of_injective Fin.val_injective).symm
  rw [h1, hmap, List.mem_range'_1]
  omega

theorem rangeIdx_append (nr start mid stop : ℕ) (h1 : start ≤ mid) (h2 : mid ≤ stop)
    (h3 : stop ≤ nr) :
    rangeIdx nr start mid ++ rangeIdx nr mid stop = rangeIdx nr start stop := by
  apply List.map_injective_iff.mpr Fin.val_injective
  rw [List.map_append, rangeIdx_map_val nr start mid (le_trans h2 h3),
    rangeIdx_map_val nr mid stop h3, rangeIdx_map_val nr start stop h3]
  have h4 := List.range'_append start (mid - start) (stop - mid) 1
  have h5 : start + 1 * (mid - start) = mid := by omega
  have h6 : stop - mid + (mid - start) = stop - start := by omega
  rw [h5, h6] at h4
  exact h4

theorem rangeIdx_full (nr : ℕ) : rangeIdx nr 0 nr = List.finRange nr := by
  apply List.map_injective_iff.mpr Fin.val_injective
  rw [rangeIdx_map_val nr 0 nr le_rfl, List.map_coe_finRange]
  rw [List.range_eq_range']
  simp

/-! ## Row-level characterization of the half-epoch update -/
theorem commitBlock_out (L : Mat nr nf) (s : ℕ) (B : List (Vec nf)) (i : Fin nr)
    (h : i.1 < s ∨ s + B.length ≤ i.1) : commitBlock L s B i = L i := by
  funext j
  unfold commitBlock
  rw [Matrix.of_apply, dif_neg (by omega)]

theorem commitBlock_in (L : Mat nr nf) (s : ℕ) (B : List (Vec nf)) (i : Fin nr)
    (h1 : s ≤ i.1) (h2 : i.1 - s < B.length) :
    commitBlock L s B i = B.get ⟨i.1 - s, h2⟩ := by
  funext j
  unfold commitBlock
  rw [Matrix.of_apply, dif_pos ⟨h1, h2⟩]

theorem chunkRanges_end_le (N C : ℕ) : ∀ p ∈ chunkRanges N C, p.2 ≤ N := by
  intro p hp
  unfold chunkRanges at hp
  obtain ⟨s, _, rfl⟩ := List.mem_map.mp hp
  exact min_le_right _ _

theorem train_update_rows_get (ctx : TrainContext nr nf no) (s e : ℕ) (he : e ≤ nr)
    (M : List (Vec nf)) (hok : _train_update_rows ctx s e = Except.ok M)
    (i : Fin nr) (h1 : s ≤ i.1) (h2 : i.1 - s < M.length) :
    rowUpdate ctx i = Except.ok (M.get ⟨i.1 - s, h2⟩) := by
  have hlen := mapMp_ok_length _ hok
  have hk : i.1 - s < (rangeIdx nr s e).length := by omega
  have hget := mapMp_ok_getElem _ hok (i.1 - s) hk h2
  have hval := rangeIdx_get nr s e he (i.1 - s) hk
  have hidx : (rangeIdx nr s e).get ⟨i.1 - s, hk⟩ = i := Fin.ext (by omega)
  rw [hidx] at hget
  exact hget

theorem fanoutCommit_rows (ctx : TrainContext nr nf no) :
    ∀ (tasks : List ((ℕ × ℕ) × Except String (List (Vec nf)))) (L : Mat nr nf)
      (acc : ℚ),
      (∀ t ∈ tasks, t.2 = _train_update_rows ctx t.1.1 t.1.2 ∧ t.1.2 ≤ nr) →
      (∀ i : Fin nr, L i = ctx.left i ∨ rowUpdate ctx i = Except.ok (L i)) →
      ∀ i : Fin nr, (fanoutCommit tasks L acc).1 i = ctx.left i
        ∨ rowUpdate ctx i = Except.ok ((fanoutCommit tasks L acc).1 i) := by
  intro tasks
  induction tasks with
  | nil => intro L acc _ hL i; exact hL i
  | cons t rest ih =>
    intro L acc htasks hL i
    obtain ⟨⟨s, e⟩, r⟩ := t
    obtain ⟨hr, he⟩ := htasks ((s, e), r) (List.mem_cons_self _ _)
    simp only at hr he
    cases r with
    | error msg => exact hL i
    | ok M =>
      show (fanoutCommit rest (commitBlock L s M) (acc + sqDiffBlock L s M)).1 i = _
        ∨ _
      refine ih (commitBlock L s M) (acc + sqDiffBlock L s M)
        (fun t ht => htasks t (List.mem_cons_of_mem _ ht)) ?_ i
      intro i'
      by_cases hin : s ≤ i'.1 ∧ i'.1 - s < M.length
      · right
        rw [commitBlock_in L s M i' hin.1 hin.2]
        exact train_update_rows_get ctx s e he M hr.symm i' hin.1 hin.2
      · rw [commitBlock_out L s M i' (by omega)]
        exact hL i'

theorem seqHalfEpoch_rows (ctx : TrainContext nr nf no) (i : Fin nr) :
    (seqHalfEpoch ctx).1 i = ctx.left i
      ∨ rowUpdate ctx i = Except.ok ((seqHalfEpoch ctx).1 i) := by
  unfold seqHalfEpoch
  cases hM : _train_update_rows ctx 0 nr with
  | error e => left; rfl
  | ok M =>
    right
    have hlen := mapMp_ok_length _ hM
    have hrl := rangeIdx_length nr 0 nr le_rfl
    have h2 : i.1 - 0 < M.length := by omega
    have := train_update_rows_get ctx 0 nr le_rfl M hM i (Nat.zero_le _) h2
    rw [this]
    simp only
    rw [commitBlock_in ctx.left 0 M i (Nat.zero_le _) h2]

theorem fanout_rows_char (ctx : TrainContext nr nf no) (C : ℕ) (i : Fin nr) :
    (_train_update_fanout ctx C).1 i = ctx.left i
      ∨ rowUpdate ctx i = Except.ok ((_train_update_fanout ctx C).1 i) := by
  unfold _train_update_fanout
  cases h50 : usesSequential nr with
  | true => rw [if_pos (by simp [h50])]; exact seqHalfEpoch_rows ctx i
  | false =>
    rw [if_neg (by simp [h50])]
    refine fanoutCommit_rows ctx (parTasks ctx C) ctx.left 0 ?_ (fun i' => Or.inl rfl) i
    intro t ht
    unfold parTasks at ht
    obtain ⟨se, hse, rfl⟩ := List.mem_map.mp ht
    exact ⟨rfl, chunkRanges_end_le nr C se hse⟩

unseal Rat.add Rat.mul Rat.sub Rat.inv in
/-- C4 (code bug): the spec's identity update for zero-observation rows is the
evident intent of the guard `(n,) = row.shape; if n == 0: continue`, but that
guard tests the selected sparse row's dense length (the column count), not its
stored-entry count.  On `ctxE` — one row with zero observations, positive
regularization scalar — the row is NOT left unchanged: it reaches the solver
with empty indices, the system matrix is `MᵀM + regI·0 = 0`, the Cholesky
factorization fails, and the half-epoch raises. -/
theorem empty_row_aborts_half_epoch :
    ctxE.matrix (0 : Fin 1) = []
    ∧ rowUpdate ctxE (0 : Fin 1)
        = Except.error "error computing Cholesky decomposition (not symmetric?)"
    ∧ (_train_update_fanout ctxE 1).2
        = Except.error "error computing Cholesky decomposition (not symmetric?)" := by
  refine ⟨rfl, by decide, ?_⟩
  have h : _train_update_fanout ctxE 1 = seqHalfEpoch ctxE := by
    unfold _train_update_fanout
    rw [if_pos (by decide)]
  rw [h]
  decide

unseal Rat.add Rat.mul Rat.sub Rat.inv in
theorem ctxC1_fanout_eval :
    (_train_update_fanout ctxC1 26).2
        = Except.error "error computing Cholesky decomposition (not symmetric?)"
    ∧ (_train_update_fanout ctxC1 26).1 (0 : Fin 51) (0 : Fin 1) = 5
    ∧ ctxC1.left (0 : Fin 51) (0 : Fin 1) = 0 := by
  have hchunks : chunkRanges 51 26 = [(0, 26), (26, 51)] := by
    rw [chunkRanges_eq 51 26 (by decide)]
    decide
  have hfan : _train_update_fanout ctxC1 26
      = fanoutCommit (parTasks ctxC1 26) ctxC1.left 0 := by
    unfold _train_update_fanout
    rw [if_neg (by decide)]
  rw [hfan]
  unfold parTasks
  rw [hchunks]
  decide

/-- C1 counterexample: with 51 rows (each with one observation) and chunk size
26, every solve of chunk one (rows 0-25) succeeds and the chunk is committed
before chunk two's first solve (row 26) fails, so the half-epoch raises but
`left` is NOT unchanged from its value at entry: row 0 now holds 5. -/
theorem half_epoch_failure_partial_commit_cex :
    (_train_update_fanout ctxC1 26).2
        = Except.error "error computing Cholesky decomposition (not symmetric?)"
    ∧ (_train_update_fanout ctxC1 26).1 (0 : Fin 51) (0 : Fin 1) = 5
    ∧ ctxC1.left (0 : Fin 51) (0 : Fin 1) = 0 :=
  ctxC1_fanout_eval

/-- C1 (amended): if any row solve in a half-epoch fails, the half-epoch
raises; on the sequential path `left` is completely unchanged; on the fan-out
path no partially computed state is committed at or below row granularity:
every row of the final `left` is either its entry value or the row solver's
complete result for that row (chunks waited on before the failure keep their
committed blocks, while the failing chunk and all later chunks leave their
rows unchanged). -/
theorem half_epoch_failure_no_partial_rows (ctx : TrainContext nr nf no) (C : ℕ)
    (e : String) (herr : (_train_update_fanout ctx C).2 = Except.error e) :
    (usesSequential nr = true → (_train_update_fanout ctx C).1 = ctx.left)
    ∧ ∀ i : Fin nr, (_train_update_fanout ctx C).1 i = ctx.left i
        ∨ rowUpdate ctx i = Except.ok ((_train_update_fanout ctx C).1 i) := by
  constructor
  · intro h50
    unfold _train_update_fanout at herr ⊢
    rw [if_pos (by simp [h50])] at herr ⊢
    unfold seqHalfEpoch at herr ⊢
    cases hM : _train_update_rows ctx 0 nr with
    | error e2 => rfl
    | ok M => rw [hM] at herr; exact Except.noConfusion herr
  · exact fun i => fanout_rows_char ctx C i

/-- Witness for the amended C1, on the failing 51-row context. -/
theorem half_epoch_failure_no_partial_rows_witness :
    (usesSequential 51 = true → (_train_update_fanout ctxC1 26).1 = ctxC1.left)
    ∧ ∀ i : Fin 51, (_train_update_fanout ctxC1 26).1 i = ctxC1.left i
        ∨ rowUpdate ctxC1 i = Except.ok ((_train_update_fanout ctxC1 26).1 i) :=
  half_epoch_failure_no_partial_rows ctxC1 26
    "error computing Cholesky decomposition (not symmetric?)" ctxC1_fanout_eval.1


unseal Rat.add Rat.mul Rat.sub Rat.inv in
/-- Helper evaluation for the C6 counterexample: at exactly 50 rows the update
takes the sequential path, whose failure semantics (no commit at all) differ
observably from the fan-out path's (chunk one committed). -/
theorem ctx50_eval :
    usesSequential 50 = true
    ∧ (_train_update_fanout ctx50 26).1 (0 : Fin 50) (0 : Fin 1) = 0
    ∧ (fanoutCommit (parTasks ctx50 26) ctx50.left 0).1 (0 : Fin 50) (0 : Fin 1)
        = 5 := by
  refine ⟨by decide, ?_, ?_⟩
  · have h : _train_update_fanout ctx50 26 = seqHalfEpoch ctx50 := by
      unfold _train_update_fanout
      rw [if_pos (by decide)]
    rw [h]
    decide
  · have hchunks : chunkRanges 50 26 = [(0, 26), (26, 50)] := by
      rw [chunkRanges_eq 50 26 (by decide)]
      decide
    unfold parTasks
    rw [hchunks]
    decide

/-- C6 counterexample: at a row count of exactly 50 the update runs
sequentially (the guard is `nrows <= 50`), not as submitted chunk tasks: the
sequential path is taken, and its observable failure behaviour differs from
the fan-out loop's on the same context. -/
theorem threshold_at_50_runs_sequentially_cex :
    usesSequential 50 = true
    ∧ (_train_update_fanout ctx50 26).1 (0 : Fin 50) (0 : Fin 1) = 0
    ∧ (fanoutCommit (parTasks ctx50 26) ctx50.left 0).1 (0 : Fin 50) (0 : Fin 1)
        = 5 :=
  ctx50_eval

/-- C6 (amended): the update runs sequentially in the calling context exactly
when the row count is at most 50 ("at 50 rows, we run sequentially"); for any
row count strictly above 50 it submits each chunk's row range as a task and
runs the wait/commit fan-out loop over the chunk partition. -/
theorem threshold_sequential_iff_le_50 (n : ℕ) (ctx : TrainContext nr nf no)
    (C : ℕ) :
    (usesSequential n = true ↔ n ≤ 50)
    ∧ (usesSequential nr = false →
        _train_update_fanout ctx C = fanoutCommit (parTasks ctx C) ctx.left 0)
    ∧ (usesSequential nr = true → _train_update_fanout ctx C = seqHalfEpoch ctx) := by
  refine ⟨?_, ?_, ?_⟩
  · unfold usesSequential
    exact decide_eq_true_iff
  · intro h
    unfold _train_update_fanout
    rw [if_neg (by simp [h])]
  · intro h
    unfold _train_update_fanout
    rw [if_pos (by simp [h])]

/-- Witness for the amended C6 on the 51-row context: above the threshold the
update is the fan-out loop over the chunk tasks. -/
theorem threshold_sequential_iff_le_50_witness :
    _train_update_fanout ctxC1 26 = fanoutCommit (parTasks ctxC1 26) ctxC1.left 0 :=
  (threshold_sequential_iff_le_50 50 ctxC1 26).2.1 (by decide)

theorem rowUpdate_left_congr (ctx : TrainContext nr nf no) (L : Mat nr nf)
    (i : Fin nr) (h : L i = ctx.left i) :
    rowUpdate { ctx with left := L } i = rowUpdate ctx i := by
  unfold rowUpdate
  simp only [h]

theorem train_update_rows_left_congr (ctx : TrainContext nr nf no) (L : Mat nr nf)
    (s e : ℕ) (he : e ≤ nr)
    (h : ∀ i : Fin nr, s ≤ i.1 → i.1 < e → L i = ctx.left i) :
    _train_update_rows { ctx with left := L } s e = _train_update_rows ctx s e := by
  unfold _train_update_rows
  exact mapMp_congr fun i hi => by
    obtain ⟨h1, h2⟩ := (mem_rangeIdx_iff nr s e he i).mp hi
    exact rowUpdate_left_congr ctx L i (h i h1 h2)

theorem rangeIdx_nil (nr a b : ℕ) (h : b ≤ a) : rangeIdx nr a b = [] := by
  unfold rangeIdx
  have h0 : b - a = 0 := by omega
  rw [h0]
  rfl

theorem commitBlock_nil (L : Mat nr nf) (s : ℕ) : commitBlock L s [] = L := by
  funext i
  exact commitBlock_out L s [] i (by simp only [List.length_nil]; omega)

theorem sqDiffBlock_nil (L : Mat nr nf) (s : ℕ) : sqDiffBlock L s [] = 0 := by
  unfold sqDiffBlock
  simp

theorem commitBlock_append (L : Mat nr nf) (s : ℕ) (B1 B2 : List (Vec nf)) :
    commitBlock L s (B1 ++ B2)
      = commitBlock (commitBlock L s B1) (s + B1.length) B2 := by
  funext i j
  unfold commitBlock
  simp only [Matrix.of_apply, List.length_append]
  by_cases h2 : s + B1.length ≤ i.1 ∧ i.1 - (s + B1.length) < B2.length
  · obtain ⟨h2a, h2b⟩ := h2
    have ha : s ≤ i.1 := by omega
    have hb : i.1 - s < B1.length + B2.length := by omega
    rw [dif_pos ⟨ha, hb⟩, dif_pos ⟨h2a, h2b⟩]
    have hge : B1.length ≤ i.1 - s := Nat.le_sub_of_add_le (by omega)
    rw [List.get_append_right B1 B2 hge]
    · exact congrFun (congrArg B2.get (Fin.ext (Nat.sub_sub _ _ _))) j
    · rw [Nat.sub_sub]
      exact h2b
  · rw [dif_neg h2]
    by_cases h1 : s ≤ i.1 ∧ i.1 - s < B1.length
    · obtain ⟨h1a, h1b⟩ := h1
      have hb : i.1 - s < B1.length + B2.length := by omega
      rw [dif_pos ⟨h1a, hb⟩, dif_pos ⟨h1a, h1b⟩]
      exact congrFun (List.get_append (i.1 - s) h1b) j
    · rw [dif_neg (by omega), dif_neg h1]

theorem sqDiffBlock_congr (L Lp : Mat nr nf) (s : ℕ) (B : List (Vec nf))
    (h : ∀ i : Fin nr, s ≤ i.1 → i.1 < s + B.length → L i = Lp i) :
    sqDiffBlock L s B = sqDiffBlock Lp s B := by
  unfold sqDiffBlock
  refine Finset.sum_congr rfl fun k _ => Finset.sum_congr rfl fun j _ => ?_
  have hrow : rowOr0 L (s + k.1) j = rowOr0 Lp (s + k.1) j := by
    unfold rowOr0
    by_cases hi : s + k.1 < nr
    · rw [dif_pos hi, dif_pos hi]
      have hle : s ≤ (⟨s + k.1, hi⟩ : Fin nr).1 := by
        show s ≤ s + k.1
        omega
      have hlt : (⟨s + k.1, hi⟩ : Fin nr).1 < s + B.length := by
        show s + k.1 < s + B.length
        have hk := k.isLt
        omega
      exact congrFun (h ⟨s + k.1, hi⟩ hle hlt) j
    · rw [dif_neg hi, dif_neg hi]
  rw [hrow]

theorem sqDiffBlock_append (L : Mat nr nf) (s : ℕ) (B1 B2 : List (Vec nf)) :
    sqDiffBlock L s (B1 ++ B2)
      = sqDiffBlock L s B1 + sqDiffBlock L (s + B1.length) B2 := by
  unfold sqDiffBlock
  have hlen : B1.length + B2.length = (B1 ++ B2).length := by simp
  rw [← Fin.sum_congr'
    (fun k : Fin (B1 ++ B2).length =>
      ∑ j : Fin nf, (rowOr0 L (s + k.1) j - (B1 ++ B2).get k j) ^ 2) hlen]
  rw [Fin.sum_univ_add]
  congr 1
  · refine Finset.sum_congr rfl fun k _ => Finset.sum_congr rfl fun j _ => ?_
    have hcast : ((Fin.cast hlen (Fin.castAdd B2.length k)) : ℕ) = k.1 := rfl
    have hget : (B1 ++ B2).get (Fin.cast hlen (Fin.castAdd B2.length k))
        = B1.get k := by
      rw [List.get_eq_getElem, List.get_eq_getElem]
      exact List.getElem_append_left k.isLt
    rw [hget, hcast]
  · refine Finset.sum_congr rfl fun k _ => Finset.sum_congr rfl fun j _ => ?_
    have hcast : ((Fin.cast hlen (Fin.natAdd B1.length k)) : ℕ) = B1.length + k.1 :=
      rfl
    have hmk : (Fin.cast hlen (Fin.natAdd B1.length k))
        = (⟨B1.length + k.1, by simp⟩ : Fin (B1 ++ B2).length) := rfl
    have hget : (B1 ++ B2).get (Fin.cast hlen (Fin.natAdd B1.length k))
        = B2.get k := by
      rw [hmk, List.get_eq_getElem, List.get_eq_getElem]
      rw [List.getElem_append_right (by simp : B1.length ≤ B1.length + k.1)]
      congr 1
      omega
    rw [hget, hcast]
    have harith : s + (B1.length + k.1) = s + B1.length + k.1 := by omega
    rw [harith]

theorem fanoutCommit_nil_eq (L : Mat nr nf) (acc : ℚ) :
    fanoutCommit [] L acc = (L, Except.ok acc) := rfl

theorem fanoutCommit_cons_ok (se : ℕ × ℕ) (M : List (Vec nf))
    (rest : List ((ℕ × ℕ) × Except String (List (Vec nf)))) (L : Mat nr nf)
    (acc : ℚ) :
    fanoutCommit ((se, Except.ok M) :: rest) L acc
      = fanoutCommit rest (commitBlock L se.1 M) (acc + sqDiffBlock L se.1 M) := rfl

theorem schedLeft_agree (ctx : TrainContext nr nf no) (C : ℕ) (hC : 0 < C)
    (σ : ℕ → ℕ) :
    ∀ j, ∀ i : Fin nr, j * C ≤ i.1 → schedLeft ctx C σ j i = ctx.left i := by
  intro j
  induction j using Nat.strong_induction_on with
  | _ j ih =>
    cases j with
    | zero => intro i _; rw [schedLeft]
    | succ m =>
      intro i hi
      have hmc : m * C ≤ (m + 1) * C := Nat.mul_le_mul_right C (Nat.le_succ m)
      rw [schedLeft]
      cases hget : (chunkRanges nr C)[m]? with
      | none => dsimp only; exact ih m (by omega) i (by omega)
      | some se =>
        dsimp only
        have hm : m < (chunkRanges nr C).length := by
          by_contra hcon
          rw [List.getElem?_eq_none (by omega)] at hget
          exact Option.noConfusion hget
        have hse : se = (m * C, min (m * C + C) nr) := by
          rw [List.getElem?_eq_getElem hm] at hget
          have := chunkRanges_getElem nr C hC m hm
          rw [this] at hget
          exact (Option.some.injEq _ _).mp hget.symm
        cases hrows : _train_update_rows
            { ctx with left := schedLeft ctx C σ (min (σ m) m) } se.1 se.2 with
        | error e => dsimp only; exact ih m (by omega) i (by omega)
        | ok M =>
          dsimp only
          have hse2 : se.2 ≤ nr := by rw [hse]; exact min_le_right _ _
          have hMlen : M.length = se.2 - se.1 := by
            have hl := mapMp_ok_length _ hrows
            rwa [rangeIdx_length nr se.1 se.2 hse2] at hl
          have hub : se.1 + M.length ≤ i.1 := by
            rw [hMlen, hse]
            simp only
            have h1 : min (m * C + C) nr ≤ m * C + C := min_le_left _ _
            have h2 : (m + 1) * C = m * C + C := by ring
            omega
          rw [commitBlock_out _ _ _ i (Or.inr hub)]
          exact ih m (by omega) i (by omega)

theorem schedTasks_eq_parTasks (ctx : TrainContext nr nf no) (C : ℕ) (hC : 0 < C)
    (σ : ℕ → ℕ) : schedTasks ctx C σ = parTasks ctx C := by
  unfold schedTasks parTasks
  refine List.ext_getElem (by simp [List.enum_length]) ?_
  intro k hk1 hk2
  have hklen : k < (chunkRanges nr C).length := by
    simpa [List.enum_length] using hk2
  have hke : k < (chunkRanges nr C).enum.length := by
    simpa [List.enum_length] using hklen
  rw [List.getElem_map, List.getElem_map, List.getElem_enum]
  have hse := chunkRanges_getElem nr C hC k hklen
  refine congrArg (fun t => ((chunkRanges nr C)[k], t)) ?_
  have hmin : min (σ k) k * C ≤ k * C := Nat.mul_le_mul_right C (min_le_right _ _)
  refine train_update_rows_left_congr ctx _ _ _ ?_ ?_
  · rw [hse]
    exact min_le_right _ _
  · intro i hi1 _
    refine schedLeft_agree ctx C hC σ (min (σ k) k) i ?_
    rw [hse] at hi1
    simp only at hi1
    omega

/-- Completion-order independence: under every completion schedule the fan-out
produces exactly the submission-order result computed from the entry context. -/
theorem sched_eq_par (ctx : TrainContext nr nf no) (C : ℕ) (hC : 0 < C)
    (σ : ℕ → ℕ) :
    _train_update_sched ctx C σ = fanoutCommit (parTasks ctx C) ctx.left 0 := by
  unfold _train_update_sched
  rw [schedTasks_eq_parTasks ctx C hC σ]

theorem master_base (ctx : TrainContext nr nf no) (C : ℕ) (s : ℕ) (hs : nr ≤ s)
    (L : Mat nr nf) (acc : ℚ) (Ms : List (Vec nf))
    (hok : _train_update_rows ctx s nr = Except.ok Ms) :
    fanoutCommit
        (((rangeStep s nr C).map fun st => (st, min (st + C) nr)).map
          fun se => (se, _train_update_rows ctx se.1 se.2)) L acc
      = (commitBlock L s Ms, Except.ok (acc + sqDiffBlock L s Ms)) := by
  unfold _train_update_rows at hok
  rw [rangeIdx_nil nr s nr hs, mapMp_nil] at hok
  injection hok with hM
  subst hM
  rw [rangeStep, dif_neg (by omega), List.map_nil, List.map_nil, fanoutCommit_nil_eq,
    commitBlock_nil, sqDiffBlock_nil, add_zero]

theorem fanout_master (ctx : TrainContext nr nf no) (C : ℕ) (hC : 0 < C) :
    ∀ (fuel s : ℕ), nr - s ≤ fuel →
      ∀ (L : Mat nr nf) (acc : ℚ) (Ms : List (Vec nf)),
        (∀ i : Fin nr, s ≤ i.1 → L i = ctx.left i) →
        _train_update_rows ctx s nr = Except.ok Ms →
        fanoutCommit
            (((rangeStep s nr C).map fun st => (st, min (st + C) nr)).map
              fun se => (se, _train_update_rows ctx se.1 se.2)) L acc
          = (commitBlock L s Ms, Except.ok (acc + sqDiffBlock L s Ms)) := by
  intro fuel
  induction fuel with
  | zero =>
    intro s hfuel L acc Ms hagree hok
    exact master_base ctx C s (by omega) L acc Ms hok
  | succ fuel ih =>
    intro s hfuel L acc Ms hagree hok
    rcases le_or_lt nr s with hge | hlt
    · exact master_base ctx C s hge L acc Ms hok
    rcases le_or_lt (s + C) nr with hle | hgt
    · -- full chunk [s, s+C), rest [s+C, nr)
      have hmin : min (s + C) nr = s + C := min_eq_left hle
      have hsplit : rangeIdx nr s nr = rangeIdx nr s (s + C) ++ rangeIdx nr (s + C) nr :=
        (rangeIdx_append nr s (s + C) nr (by omega) hle le_rfl).symm
      unfold _train_update_rows at hok
      rw [hsplit] at hok
      obtain ⟨M1, M2, hM1, hM2, rfl⟩ := mapMp_append_ok _ hok
      have hM1r : _train_update_rows ctx s (s + C) = Except.ok M1 := hM1
      have hM2r : _train_update_rows ctx (s + C) nr = Except.ok M2 := hM2
      have hlen1 : M1.length = C := by
        have hl := mapMp_ok_length _ hM1
        rw [rangeIdx_length nr s (s + C) hle] at hl
        omega
      rw [rangeStep, dif_pos ⟨hC, hlt⟩, List.map_cons, List.map_cons]
      simp only [hmin]
      rw [hM1r, fanoutCommit_cons_ok]
      have hagree2 : ∀ i : Fin nr, s + C ≤ i.1 → commitBlock L s M1 i = ctx.left i := by
        intro i hi
        rw [commitBlock_out _ _ _ i (Or.inr (by omega))]
        exact hagree i (by omega)
      rw [ih (s + C) (by omega) (commitBlock L s M1) (acc + sqDiffBlock L s M1) M2
        hagree2 hM2r]
      have hcommit : commitBlock L s (M1 ++ M2)
          = commitBlock (commitBlock L s M1) (s + C) M2 := by
        rw [commitBlock_append]
        rw [hlen1]
      have hsq : sqDiffBlock (commitBlock L s M1) (s + C) M2
          = sqDiffBlock L (s + C) M2 := by
        refine sqDiffBlock_congr _ _ _ _ fun i hi1 _ => ?_
        rw [commitBlock_out _ _ _ i (Or.inr (by omega))]
      have hsq2 : sqDiffBlock L s (M1 ++ M2)
          = sqDiffBlock L s M1 + sqDiffBlock L (s + C) M2 := by
        rw [sqDiffBlock_append, hlen1]
      rw [hcommit, hsq, hsq2, add_assoc]
    · -- final partial chunk [s, nr); the rest of the iteration is empty
      have hmin : min (s + C) nr = nr := min_eq_right (by omega)
      have hM2nil : _train_update_rows ctx nr nr = Except.ok [] := by
        unfold _train_update_rows
        rw [rangeIdx_nil nr nr nr le_rfl, mapMp_nil]
      rw [rangeStep, dif_pos ⟨hC, hlt⟩, List.map_cons, List.map_cons]
      simp only [hmin]
      rw [hok, fanoutCommit_cons_ok]
      have hrest : rangeStep (s + C) nr C = [] := by
        rw [rangeStep, dif_neg (by omega)]
      rw [hrest, List.map_nil, List.map_nil, fanoutCommit_nil_eq]

theorem seqHalfEpoch_eq (ctx : TrainContext nr nf no) (Ms : List (Vec nf))
    (hok : _train_update_rows ctx 0 nr = Except.ok Ms) :
    seqHalfEpoch ctx
      = (commitBlock ctx.left 0 Ms, Except.ok (sqDiffBlock ctx.left 0 Ms)) := by
  unfold seqHalfEpoch
  rw [hok]

theorem par_eq_seq (ctx : TrainContext nr nf no) (C : ℕ) (hC : 0 < C)
    (Ms : List (Vec nf)) (hok : _train_update_rows ctx 0 nr = Except.ok Ms) :
    fanoutCommit (parTasks ctx C) ctx.left 0 = seqHalfEpoch ctx := by
  rw [seqHalfEpoch_eq ctx Ms hok]
  have h := fanout_master ctx C hC nr 0 (by omega) ctx.left 0 Ms
    (fun _ _ => rfl) hok
  rw [zero_add] at h
  unfold parTasks chunkRanges
  exact h

theorem sqDiff_commit_full (L : Mat nr nf) (B : List (Vec nf))
    (hB : B.length = nr) :
    sqDiff L (commitBlock L 0 B) = sqDiffBlock L 0 B := by
  unfold sqDiff sqDiffBlock
  rw [← Fin.sum_congr'
    (fun i : Fin nr => ∑ j : Fin nf, (L i j - commitBlock L 0 B i j) ^ 2) hB]
  refine Finset.sum_congr rfl fun k _ => Finset.sum_congr rfl fun j _ => ?_
  have hki : (Fin.cast hB k).1 = k.1 := rfl
  have hin : 0 ≤ (Fin.cast hB k).1 ∧ (Fin.cast hB k).1 - 0 < B.length := by
    refine ⟨Nat.zero_le _, ?_⟩
    rw [hki]
    simpa using k.isLt
  have hcb : commitBlock L 0 B (Fin.cast hB k)
      = B.get ⟨(Fin.cast hB k).1 - 0, hin.2⟩ :=
    commitBlock_in L 0 B (Fin.cast hB k) hin.1 hin.2
  rw [hcb]
  have hrow : rowOr0 L (0 + k.1) j = L (Fin.cast hB k) j := by
    unfold rowOr0
    have hklt : 0 + k.1 < nr := by
      have hk := k.isLt
      omega
    rw [dif_pos hklt]
    refine congrFun (congrArg L (Fin.ext ?_)) j
    show 0 + k.1 = (Fin.cast hB k).1
    rw [hki]
    omega
  rw [hrow]
  have hget : B.get ⟨(Fin.cast hB k).1 - 0, hin.2⟩ = B.get k := by
    refine congrArg B.get (Fin.ext ?_)
    show (Fin.cast hB k).1 - 0 = k.1
    rw [hki]
    omega
  rw [hget]

/-- C2: for every training context and chunk size `C ≥ 1`, and for every task
completion schedule, the chunked fan-out path produces the same final `left`
matrix and the same return value as the sequential path (so the result is
independent of completion order), and that returned value is the Euclidean
norm of the difference between `left` before and after the update — the
square root of the sum over chunks of squared per-chunk differences. -/
theorem fanout_refines_sequential (ctx : TrainContext nr nf no) (C : ℕ)
    (hC : 0 < C) (σ : ℕ → ℕ) (Ms : List (Vec nf))
    (hseq : _train_update_rows ctx 0 nr = Except.ok Ms) :
    _train_update_sched ctx C σ = seqHalfEpoch ctx
    ∧ fanoutCommit (parTasks ctx C) ctx.left 0 = seqHalfEpoch ctx
    ∧ returnVal (seqHalfEpoch ctx).2 = euclNorm ctx.left (seqHalfEpoch ctx).1 := by
  have hpar := par_eq_seq ctx C hC Ms hseq
  refine ⟨?_, hpar, ?_⟩
  · rw [sched_eq_par ctx C hC σ, hpar]
  · rw [seqHalfEpoch_eq ctx Ms hseq]
    unfold returnVal euclNorm
    have hlen : Ms.length = nr := by
      have hl := mapMp_ok_length _ hseq
      rwa [rangeIdx_length nr 0 nr le_rfl, Nat.sub_zero] at hl
    rw [sqDiff_commit_full ctx.left Ms hlen]

theorem choleskySolve_ok_of_ok {n : ℕ} {A : Mat n n} (b : Vec n)
    (h : choleskyOk A = true) : ∃ v, choleskySolve A b = Except.ok v := by
  unfold choleskySolve
  rw [if_pos h]
  exact ⟨_, rfl⟩

unseal Rat.add Rat.mul Rat.sub Rat.inv in
/-- On `ctxW` each row's regularized system matrix is `[[2]]`, whose
factorization succeeds. -/
theorem ctxW_chol_ok :
    choleskyOk (normalA (([((0 : Fin 1), (3 : ℚ))]).map Prod.fst)
      ctxW.right ctxW.regI) = true := by
  decide

/-- Witness for C2 on `ctxW`, a concrete 2-row context on which every row
solve succeeds (each row's regularized system is `[[2]] x = [3]`). -/
theorem fanout_refines_sequential_witness :
    _train_update_sched ctxW 1 id = seqHalfEpoch ctxW
    ∧ fanoutCommit (parTasks ctxW 1) ctxW.left 0 = seqHalfEpoch ctxW
    ∧ returnVal (seqHalfEpoch ctxW).2 = euclNorm ctxW.left (seqHalfEpoch ctxW).1 := by
  have hone : ∀ i ∈ rangeIdx 2 0 2, ∃ v, rowUpdate ctxW i = Except.ok v := by
    intro i _
    have h1 : rowUpdate ctxW i
        = _train_solve_row (([((0 : Fin 1), (3 : ℚ))]).map Prod.fst)
            (fun k => (([((0 : Fin 1), (3 : ℚ))]).get (Fin.cast (by simp) k)).2)
            ctxW.right ctxW.regI := rfl
    obtain ⟨v, hv⟩ := choleskySolve_ok_of_ok
      (rhsV (([((0 : Fin 1), (3 : ℚ))]).map Prod.fst)
        (fun k => (([((0 : Fin 1), (3 : ℚ))]).get (Fin.cast (by simp) k)).2)
        ctxW.right) ctxW_chol_ok
    refine ⟨v, ?_⟩
    rw [h1]
    exact hv
  obtain ⟨Ms, hMs⟩ := mapMp_ok_of_forall (rowUpdate ctxW) hone
  exact fanout_refines_sequential ctxW 1 Nat.one_pos id Ms hMs

/-- C8: re-initializing the process-wide parallelism configuration after it is
already set returns normally with only a warning and leaves the stored
configuration unchanged, regardless of the arguments: the first call wins. -/
theorem initConfig_second_call_noop (c : ParallelConfig) (env : ParallelEnv)
    (p t ct : Option ℕ) :
    initConfig (some c) env p t ct = (some c, true) := rfl

/-- C9: with no explicit argument and no environment override for child
threads, whenever fewer CPUs are available than the resolved process count,
the resolved child-thread count is zero: the fallback is the integer division
`ncpus // processes` with no minimum of 1. -/
theorem child_threads_zero_when_fewer_cpus (env : ParallelEnv)
    (p t : Option ℕ) (hchild : env.lk_num_child_threads = none)
    (hcpu : env.ncpus < (_resolve_parallel_config env p t none).processes) :
    (_resolve_parallel_config env p t none).child_threads = 0 := by
  simp only [_resolve_parallel_config, hchild, Option.getD_none] at hcpu ⊢
  rw [Nat.div_eq_of_lt hcpu]
  simp

/-- Witness for C9: 2 CPUs, 4 requested processes, nothing configured for
child threads: the resolved child-thread count is 0. -/
theorem child_threads_zero_when_fewer_cpus_witness :
    (_resolve_parallel_config ⟨none, none, none, 2⟩ (some 4) none
        none).child_threads = 0 :=
  child_threads_zero_when_fewer_cpus ⟨none, none, none, 2⟩ (some 4) none rfl
    (by decide)

/-- C10: the cold-start embedding depends only on the rated items present in
the trained item vocabulary: any two rating series agreeing there produce the
same result, and a rating for an unknown item inserted anywhere is silently
dropped before solving, never changing the outcome (in particular it cannot
cause an error). -/
theorem new_user_embedding_ignores_unknown {a : Type} [DecidableEq a]
    (items : List a) (item_features : Mat items.length nf) (ureg : ℚ)
    (r1 r2 pre post : List (a × ℚ)) (x : a) (v : ℚ)
    (hagree : knownRatings items r1 = knownRatings items r2)
    (hunk : lookupIdx items x = none) :
    new_user_embedding items item_features ureg r1
        = new_user_embedding items item_features ureg r2
    ∧ new_user_embedding items item_features ureg (pre ++ (x, v) :: post)
        = new_user_embedding items item_features ureg (pre ++ post) := by
  constructor
  · unfold new_user_embedding
    rw [hagree]
  · unfold new_user_embedding
    have h : knownRatings items (pre ++ (x, v) :: post)
        = knownRatings items (pre ++ post) := by
      unfold knownRatings
      rw [List.filterMap_append, List.filterMap_append, List.filterMap_cons]
      rw [hunk]
      simp
    rw [h]

/-- Witness for C10: vocabulary `[7]`; the series `[(7, 3), (9, 4)]` (with the
unknown item 9) and `[(7, 3)]` agree on the vocabulary and embed equally. -/
theorem new_user_embedding_ignores_unknown_witness :
    new_user_embedding [7] (Matrix.of fun _ _ => (1 : ℚ) : Mat 1 1) 1
          [((7 : ℕ), (3 : ℚ)), (9, 4)]
        = new_user_embedding [7] (Matrix.of fun _ _ => (1 : ℚ) : Mat 1 1) 1
          [((7 : ℕ), (3 : ℚ))]
    ∧ new_user_embedding [7] (Matrix.of fun _ _ => (1 : ℚ) : Mat 1 1) 1
          ([] ++ ((9 : ℕ), (4 : ℚ)) :: [((7 : ℕ), (3 : ℚ))])
        = new_user_embedding [7] (Matrix.of fun _ _ => (1 : ℚ) : Mat 1 1) 1
          ([] ++ [((7 : ℕ), (3 : ℚ))]) :=
  new_user_embedding_ignores_unknown [7] (Matrix.of fun _ _ => (1 : ℚ) : Mat 1 1) 1
    [((7 : ℕ), (3 : ℚ)), (9, 4)] [((7 : ℕ), (3 : ℚ))] [] [((7 : ℕ), (3 : ℚ))] 9 4
    (by decide) (by decide)

end LKSpec
